import Mathlib

/-!
A shallow embedding of `landevlist.py`, a program that lists the MAC and
IPv4 addresses of reachable LAN devices.

The pipeline of `get_all_reachable_lan_devs` is embedded as pure functions:

* the neighbour-table text (stdout of the external `ip -4 neigh show`
  process) is an explicit `String` argument;
* the external reachability probe (`is_ip_reachable`, which runs `ping`)
  is an explicit `String → Bool` argument wherever the coordinator uses it;
* Python `dict` is embedded as an insertion-ordered association list with
  unique keys: assigning to an existing key updates the value in place,
  assigning a fresh key appends, `pop` removes the entry;
* `re.search` with the fixed-width pattern
  `([0-9A-Fa-f]\x7b2\x7d[:-])\x7b5\x7d([0-9A-Fa-f]\x7b2\x7d)` is embedded as
  a leftmost scan for a 17-character window of that exact shape;
* `str.split()` (no separator) is embedded as splitting on runs of
  ASCII whitespace, discarding empty tokens.
-/

namespace Landevlist

/-- ASCII whitespace, the characters Python's separator-less `str.split`
splits on for ASCII text. -/
def isSpace (c : Char) : Bool :=
  c = ' ' || c = '\t' || c = '\n' || c = '\r' || c = '\x0b' || c = '\x0c'

/-- The character class `[0-9A-Fa-f]` of the MAC regex. -/
def isHexDigit (c : Char) : Bool :=
  ('0' ≤ c && c ≤ '9') || ('A' ≤ c && c ≤ 'F') || ('a' ≤ c && c ≤ 'f')

/-- The character class `[:-]` of the MAC regex. -/
def isSep (c : Char) : Bool :=
  c = ':' || c = '-'

/-- A 17-character list matches the MAC pattern: positions 2, 5, 8, 11 and
14 are separators, the other twelve positions are hex digits.  This is the
shape of any match of the fixed-width regex in `get_all_reachable_lan_devs`. -/
def macShape (m : List Char) : Bool :=
  decide (m.length = 17) &&
    (List.range 17).all fun j =>
      if j % 3 = 2 then isSep (m.getD j ' ') else isHexDigit (m.getD j ' ')

/-- Try to match the MAC pattern at the start of `cs`; on success return the
matched 17-character substring (`mac_match.group(0)` for a match anchored
here). -/
def macHere (cs : List Char) : Option (List Char) :=
  if macShape (cs.take 17) then some (cs.take 17) else none

/-- `re.search` for the MAC pattern: scan left to right and return the
leftmost match.  The pattern is fixed-width, so a match at a position is
exactly a 17-character window of the right shape. -/
def macSearch : List Char → Option (List Char)
  | [] => none
  | c :: rest =>
    match macHere (c :: rest) with
    | some m => some m
    | none => macSearch rest

/-- `mac_pattern.search(line)` followed by `.group(0)`, on strings. -/
def searchMacStr (s : String) : Option String :=
  (macSearch s.data).map String.mk

/-- Helper for `pySplit`: `cur` holds the (reversed) token being read. -/
def pySplitAux : List Char → List Char → List (List Char)
  | [], cur => if cur = [] then [] else [cur.reverse]
  | c :: rest, cur =>
    if isSpace c then
      if cur = [] then pySplitAux rest [] else cur.reverse :: pySplitAux rest []
    else
      pySplitAux rest (c :: cur)

/-- Python `str.split()` with no separator: split on runs of whitespace,
with no empty tokens. -/
def pySplit (cs : List Char) : List (List Char) :=
  pySplitAux cs []

/-- `line.split()[0]`.  The Python code indexes unconditionally; the
default `""` is returned only on an all-whitespace line, and the safety
claim shows the default is never used on a line where the MAC pattern
matched. -/
def firstTokStr (s : String) : String :=
  String.mk ((pySplit s.data).headD [])

/-- `stdout.split("\n")`: split on each newline, keeping empty segments. -/
def splitOn (sep : Char) : List Char → List (List Char)
  | [] => [[]]
  | c :: rest =>
    if c = sep then [] :: splitOn sep rest
    else
      match splitOn sep rest with
      | [] => [[c]]
      | t :: ts => (c :: t) :: ts

/-- The Python `dict` built by the parse loop: an insertion-ordered list of
`(mac, ip)` entries with unique keys. -/
abbrev Dict := List (String × String)

/-- Whether `k` is already a key of the dict. -/
def containsKey (k : String) (d : Dict) : Bool :=
  d.any fun p => decide (p.1 = k)

/-- Python `d[k] = v`: an existing key keeps its position and gets the new
value; a fresh key is appended at the end. -/
def dictInsert (k v : String) (d : Dict) : Dict :=
  if containsKey k d then d.map (fun p => if p.1 = k then (k, v) else p)
  else d ++ [(k, v)]

/-- Python `d[k]` / key lookup: the value at the first entry whose key is
`k`. -/
def dictLookup (k : String) : Dict → Option String
  | [] => none
  | p :: d => if p.1 = k then some p.2 else dictLookup k d

/-- Python `d.pop(k)`: remove the entry with key `k`. -/
def dictPop (k : String) (d : Dict) : Dict :=
  d.filter fun p => decide (p.1 ≠ k)

/-- The body of the parse loop: search the line for a MAC; on a match store
`lan_dev[mac] = line.split()[0]`, otherwise leave the dict unchanged. -/
def processLine (d : Dict) (line : String) : Dict :=
  match searchMacStr line with
  | some mac => dictInsert mac (firstTokStr line) d
  | none => d

/-- `procresultlines`: the non-empty lines of the neighbour-table text
(`list(filter(len, proc.stdout.split("\n")))`). -/
def procResultLines (stdout : String) : List String :=
  ((splitOn '\n' stdout.data).filter (fun l => !l.isEmpty)).map String.mk

/-- The candidate set: the dict built by folding the parse loop over the
non-empty lines of the neighbour-table text. -/
def buildCandidates (stdout : String) : Dict :=
  (procResultLines stdout).foldl processLine []

/-- `pool.map(is_ip_reachable, all_ips)`, instrumented: apply the probe to
each address in order, recording every invocation's argument in `trace`.
Returns the ordered outcome list and the final invocation trace. -/
def poolMapT (probe : String → Bool) : List String → List String → List Bool × List String
  | [], trace => ([], trace)
  | ip :: ips, trace =>
    let rest := poolMapT probe ips (trace ++ [ip])
    (probe ip :: rest.1, rest.2)

/-- The filtering loop: for each index `i`, if `result[i]` is false, pop
`all_macs[i]` from the dict.  `pairs` is `zip all_macs result`. -/
def popLoop (pairs : List (String × Bool)) (d : Dict) : Dict :=
  pairs.foldl (fun acc q => if q.2 then acc else dictPop q.1 acc) d

/-- The coordinator with its probe-invocation trace: snapshot the keys and
values, probe every value once, drop each entry whose outcome is false.
The second component is the full list of probe invocations. -/
def filterReachableT (d : Dict) (probe : String → Bool) : Dict × List String :=
  let all_macs := d.map Prod.fst
  let all_ips := d.map Prod.snd
  let r := poolMapT probe all_ips []
  (popLoop (all_macs.zip r.1) d, r.2)

/-- `filterReachable`: the filtering stage of `get_all_reachable_lan_devs`. -/
def filterReachable (d : Dict) (probe : String → Bool) : Dict :=
  (filterReachableT d probe).1

/-- `get_all_reachable_lan_devs`, as a function of the neighbour-table text
and the probe: parse the non-empty lines into a candidate dict (returning
`[]` early when there are no lines at all), then keep the reachable
entries. -/
def get_all_reachable_lan_devs (stdout : String) (probe : String → Bool) : Dict :=
  let procresultlines := procResultLines stdout
  if procresultlines = [] then []
  else filterReachable (procresultlines.foldl processLine []) probe

/-- `is_ip_reachable` reduced to its decision: the probe subprocess's
return code is compared with 0 (`subprocess.run` without `check` never
raises on a non-zero return code). -/
def is_ip_reachable (proc_returncode : Int) : Bool :=
  proc_returncode == 0

/-- Modelled from the spec: the exit-status contract of the external
`ping -c 1 -W 1` probe facility, which is not part of this repository.
The probe answers affirmatively with status 0; a timeout or an explicit
negative response exits 1; a probe-execution error exits 2.  Every
non-affirmative outcome has a non-zero status. -/
inductive ProbeOutcome
  | answered
  | timeout
  | negative
  | execError
deriving DecidableEq

/-- Modelled from the spec: the return code the probe run reports for each
outcome. -/
def pingReturnCode : ProbeOutcome → Int
  | .answered => 0
  | .timeout => 1
  | .negative => 1
  | .execError => 2

/-- The recognised help arguments of `main`. -/
def helpArgs : List String := ["help", "-help", "--help", "/help"]

/-- `main`, as a function of the argument vector, the preflight dependency
check, the neighbour-table text and the probe.  Returns the process exit
status and whether discovery (`get_all_reachable_lan_devs`) ran.  Both the
"no devices" branch (`sys.exit(0)`) and the table-printing fall-through
end the process with status 0. -/
def mainRun (argv : List String) (prereqOk : Bool) (stdout : String)
    (probe : String → Bool) : Nat × Bool :=
  if decide (1 < argv.length) && decide (argv.getD 1 "" ∈ helpArgs) then
    (0, false)
  else if !prereqOk then
    (1, false)
  else
    let reachable_devs := get_all_reachable_lan_devs stdout probe
    (if reachable_devs = [] then 0 else 0, true)

/-! ### Lemmas about the coordinator -/

theorem poolMapT_spec (probe : String → Bool) :
    ∀ (ips trace : List String), poolMapT probe ips trace = (ips.map probe, trace ++ ips)
  | [], trace => by simp [poolMapT]
  | ip :: ips, trace => by
    simp [poolMapT, poolMapT_spec probe ips (trace ++ [ip])]

theorem popLoop_nil (d : Dict) : popLoop [] d = d := rfl

theorem popLoop_cons_true (k : String) (pairs : List (String × Bool)) (d : Dict) :
    popLoop ((k, true) :: pairs) d = popLoop pairs d := rfl

theorem popLoop_cons_false (k : String) (pairs : List (String × Bool)) (d : Dict) :
    popLoop ((k, false) :: pairs) d = popLoop pairs (dictPop k d) := rfl

theorem mem_dictPop {p : String × String} {k : String} {d : Dict}
    (h : p ∈ dictPop k d) : p ∈ d :=
  List.mem_of_mem_filter h

theorem mem_popLoop {p : String × String} :
    ∀ {pairs : List (String × Bool)} {d : Dict}, p ∈ popLoop pairs d → p ∈ d := by
  intro pairs
  induction pairs with
  | nil => intro d h; exact h
  | cons q pairs ih =>
    obtain ⟨k, b⟩ := q
    intro d h
    cases b
    · rw [popLoop_cons_false] at h
      exact mem_dictPop (ih h)
    · rw [popLoop_cons_true] at h
      exact ih h

theorem dictPop_cons_of_ne {m k : String} (ip : String) (d : Dict) (h : m ≠ k) :
    dictPop k ((m, ip) :: d) = (m, ip) :: dictPop k d := by
  simp [dictPop, List.filter_cons, h]

theorem dictPop_eq_self {k : String} {d : Dict} (h : ∀ p ∈ d, p.1 ≠ k) :
    dictPop k d = d := by
  apply List.filter_eq_self.mpr
  intro p hp
  simpa using h p hp

theorem popLoop_cons_entry {m : String} (ip : String) :
    ∀ {pairs : List (String × Bool)} {d : Dict}, (∀ q ∈ pairs, q.1 ≠ m) →
      popLoop pairs ((m, ip) :: d) = (m, ip) :: popLoop pairs d := by
  intro pairs
  induction pairs with
  | nil => intro d _; rfl
  | cons q pairs ih =>
    obtain ⟨k, b⟩ := q
    intro d hq
    have hkm : m ≠ k := Ne.symm (hq (k, b) (List.mem_cons_self (k, b) pairs))
    cases b
    · rw [popLoop_cons_false, popLoop_cons_false, dictPop_cons_of_ne ip d hkm]
      exact ih fun r hr => hq r (List.mem_cons_of_mem (k, false) hr)
    · rw [popLoop_cons_true, popLoop_cons_true]
      exact ih fun r hr => hq r (List.mem_cons_of_mem (k, true) hr)

theorem popLoop_zip_eq (d : Dict) (result : List Bool)
    (hnd : (d.map Prod.fst).Nodup) (hlen : result.length = d.length) :
    popLoop ((d.map Prod.fst).zip result) d
      = ((d.zip result).filter fun q => q.2).map Prod.fst := by
  induction d generalizing result with
  | nil => simp [popLoop]
  | cons p d ih =>
    obtain ⟨m, ip⟩ := p
    cases result with
    | nil => simp at hlen
    | cons b result =>
      simp only [List.map_cons, List.nodup_cons] at hnd
      obtain ⟨hm, hnd'⟩ := hnd
      have hlen' : result.length = d.length := by simpa using hlen
      cases b
      · rw [List.map_cons, List.zip_cons_cons, popLoop_cons_false]
        have hd : dictPop m ((m, ip) :: d) = d := by
          have h0 : dictPop m ((m, ip) :: d) = dictPop m d := by
            simp [dictPop, List.filter_cons]
          rw [h0]
          exact dictPop_eq_self fun p hp he =>
            hm (he ▸ List.mem_map_of_mem Prod.fst hp)
        rw [hd, ih result hnd' hlen']
        simp [List.zip_cons_cons, List.filter_cons]
      · rw [List.map_cons, List.zip_cons_cons, popLoop_cons_true]
        have hne : ∀ q ∈ (d.map Prod.fst).zip result, q.1 ≠ m := by
          intro q hq he
          exact hm (he ▸ (List.of_mem_zip hq).1)
        rw [popLoop_cons_entry ip hne, ih result hnd' hlen']
        simp [List.zip_cons_cons, List.filter_cons]

theorem zip_map_probe_filter (probe : String → Bool) :
    ∀ d : Dict, ((d.zip ((d.map Prod.snd).map probe)).filter fun q => q.2).map Prod.fst
      = d.filter fun p => probe p.2
  | [] => by simp
  | (m, ip) :: d => by
    have ih := zip_map_probe_filter probe d
    simp only [List.map_map] at ih
    cases hp : probe ip <;>
      simp [List.zip_cons_cons, List.filter_cons, hp, List.map_map, ih]

/-- C1: for every candidate set (with the unique MAC keys every Python dict
has) and every assignment of probe outcomes of matching length, the
filtering stage keeps exactly the `(mac, ip)` entries whose own outcome —
paired back by position — is `true`: no false-outcome entry survives, every
true-outcome entry survives, and no entry is ever paired with another
candidate's outcome.  Instantiated at the outcome list the code actually
computes (`pool.map(is_ip_reachable, all_ips)`), `filterReachable` returns
exactly the entries whose own ip probes true. -/
theorem filterReachable_exact_outcomes (d : Dict) (result : List Bool)
    (hnd : (d.map Prod.fst).Nodup) (hlen : result.length = d.length) :
    popLoop ((d.map Prod.fst).zip result) d
        = ((d.zip result).filter fun q => q.2).map Prod.fst
      ∧ ∀ probe : String → Bool, filterReachable d probe = d.filter fun p => probe p.2 := by
  constructor
  · exact popLoop_zip_eq d result hnd hlen
  · intro probe
    have h1 : filterReachable d probe
        = popLoop ((d.map Prod.fst).zip (poolMapT probe (d.map Prod.snd) []).1) d := rfl
    rw [h1, poolMapT_spec]
    rw [popLoop_zip_eq d ((d.map Prod.snd).map probe) hnd (by simp)]
    exact zip_map_probe_filter probe d

theorem filterReachable_exact_outcomes_witness :
    ((([("aa:bb:cc:dd:ee:ff", "192.168.1.10"), ("11:22:33:44:55:66", "192.168.1.20")] :
        Dict).map Prod.fst).Nodup
      ∧ ([true, false] : List Bool).length
          = ([("aa:bb:cc:dd:ee:ff", "192.168.1.10"), ("11:22:33:44:55:66", "192.168.1.20")] :
              Dict).length)
    ∧ popLoop
        ((([("aa:bb:cc:dd:ee:ff", "192.168.1.10"), ("11:22:33:44:55:66", "192.168.1.20")] :
            Dict).map Prod.fst).zip [true, false])
        [("aa:bb:cc:dd:ee:ff", "192.168.1.10"), ("11:22:33:44:55:66", "192.168.1.20")]
        = [("aa:bb:cc:dd:ee:ff", "192.168.1.10")]
    ∧ filterReachable
        [("aa:bb:cc:dd:ee:ff", "192.168.1.10"), ("11:22:33:44:55:66", "192.168.1.20")]
        (fun ip => ip = "192.168.1.10")
        = [("aa:bb:cc:dd:ee:ff", "192.168.1.10")] := by
  have h := filterReachable_exact_outcomes
    [("aa:bb:cc:dd:ee:ff", "192.168.1.10"), ("11:22:33:44:55:66", "192.168.1.20")]
    [true, false] (by decide) (by decide)
  exact ⟨⟨by decide, by decide⟩, h.1.trans (by decide),
    (h.2 fun ip => ip = "192.168.1.10").trans (by decide)⟩

/-- C7: the coordinator invokes the probe exactly `N` times on a candidate
set of size `N`: the recorded invocation trace is exactly the list of the
candidates' IPv4 addresses in snapshot order — one invocation per
candidate, no retry and no re-probe. -/
theorem filterReachable_probe_count (d : Dict) (probe : String → Bool) :
    (filterReachableT d probe).2 = d.map Prod.snd
      ∧ (filterReachableT d probe).2.length = d.length := by
  have h2 : (filterReachableT d probe).2 = (poolMapT probe (d.map Prod.snd) []).2 := rfl
  rw [h2, poolMapT_spec]
  simp

/-- C6: when the candidate set is empty — whether because the
neighbour-table text has no lines at all (the early `return {}`) or
because lines exist but none yields a candidate — the result is the empty
dict and no probe is invoked (the invocation trace is empty). -/
theorem filterReachable_empty_no_probes (stdout : String) (probe : String → Bool)
    (h : buildCandidates stdout = []) :
    get_all_reachable_lan_devs stdout probe = []
      ∧ (filterReachableT (buildCandidates stdout) probe).2 = [] := by
  constructor
  · have hdef : get_all_reachable_lan_devs stdout probe
        = if procResultLines stdout = [] then []
          else filterReachable ((procResultLines stdout).foldl processLine []) probe := rfl
    rw [hdef]
    by_cases hl : procResultLines stdout = []
    · rw [if_pos hl]
    · rw [if_neg hl, show (procResultLines stdout).foldl processLine [] = [] from h]
      rfl
  · rw [h]
    rfl

theorem filterReachable_empty_no_probes_witness :
    buildCandidates "192.168.1.11 dev eth0 FAILED\n\n" = []
      ∧ (get_all_reachable_lan_devs "192.168.1.11 dev eth0 FAILED\n\n" (fun _ => true) = []
        ∧ (filterReachableT (buildCandidates "192.168.1.11 dev eth0 FAILED\n\n")
            (fun _ => true)).2 = []) :=
  ⟨by decide, filterReachable_empty_no_probes _ _ (by decide)⟩

/-! ### Lemmas about the dict built by the parse loop -/

theorem mem_dictInsert {p : String × String} {k v : String} {d : Dict}
    (h : p ∈ dictInsert k v d) : p = (k, v) ∨ p ∈ d := by
  unfold dictInsert at h
  split at h
  · obtain ⟨q, hq, he⟩ := List.mem_map.mp h
    by_cases hk : q.1 = k
    · rw [if_pos hk] at he
      exact Or.inl he.symm
    · rw [if_neg hk] at he
      exact Or.inr (he ▸ hq)
  · rcases List.mem_append.mp h with h1 | h1
    · exact Or.inr h1
    · exact Or.inl (List.mem_singleton.mp h1)

theorem keys_dictInsert (k v : String) (d : Dict) :
    (dictInsert k v d).map Prod.fst
      = if containsKey k d then d.map Prod.fst else d.map Prod.fst ++ [k] := by
  unfold dictInsert
  split
  · rw [List.map_map]
    apply List.map_congr_left
    intro p _
    by_cases hk : p.1 = k
    · simp [Function.comp, hk]
    · simp [Function.comp, hk]
  · simp

theorem not_containsKey_iff {k : String} {d : Dict} :
    containsKey k d = false ↔ ∀ p ∈ d, p.1 ≠ k := by
  simp [containsKey, List.any_eq_true]

theorem nodup_keys_dictInsert (k v : String) {d : Dict}
    (h : (d.map Prod.fst).Nodup) : ((dictInsert k v d).map Prod.fst).Nodup := by
  rw [keys_dictInsert]
  cases hc : containsKey k d
  · simp only [Bool.false_eq_true, if_false]
    have hk : k ∉ d.map Prod.fst := by
      intro hmem
      obtain ⟨p, hp, he⟩ := List.mem_map.mp hmem
      exact not_containsKey_iff.mp hc p hp he
    simp [List.nodup_append, h, hk]
  · simpa using h

theorem nodup_keys_processLine (line : String) {d : Dict}
    (h : (d.map Prod.fst).Nodup) : ((processLine d line).map Prod.fst).Nodup := by
  unfold processLine
  cases searchMacStr line
  · exact h
  · exact nodup_keys_dictInsert _ _ h

theorem nodup_keys_foldl (lines : List String) :
    ∀ {d : Dict}, (d.map Prod.fst).Nodup → ((lines.foldl processLine d).map Prod.fst).Nodup := by
  induction lines with
  | nil => intro d h; exact h
  | cons l lines ih => intro d h; exact ih (nodup_keys_processLine l h)

theorem dictLookup_append (m : String) :
    ∀ (d e : Dict), dictLookup m (d ++ e)
      = match dictLookup m d with
        | some v => some v
        | none => dictLookup m e
  | [], e => by simp [dictLookup]
  | p :: d, e => by
    by_cases hk : p.1 = m
    · simp [dictLookup, hk]
    · simp [dictLookup, hk, dictLookup_append m d e]

theorem dictLookup_map_update_ne {m k v : String} (h : m ≠ k) :
    ∀ d : Dict, dictLookup m (d.map fun p => if p.1 = k then (k, v) else p)
      = dictLookup m d
  | [] => rfl
  | p :: d => by
    by_cases hk : p.1 = k
    · have h1 : ¬ ((k : String) = m) := fun he => h he.symm
      have h2 : ¬ (p.1 = m) := fun he => h (he ▸ hk)
      simp [dictLookup, hk, h1, h2, dictLookup_map_update_ne h d]
    · by_cases hm : p.1 = m
      · simp [dictLookup, hk, hm, h]
      · simp [dictLookup, hk, hm, dictLookup_map_update_ne h d]

theorem dictLookup_map_update_eq {k v : String} :
    ∀ {d : Dict}, containsKey k d = true →
      dictLookup k (d.map fun p => if p.1 = k then (k, v) else p) = some v := by
  intro d
  induction d with
  | nil => intro h; simp [containsKey] at h
  | cons p d ih =>
    intro h
    by_cases hk : p.1 = k
    · simp [dictLookup, hk]
    · have h' : containsKey k d = true := by
        simpa [containsKey, List.any_cons, hk] using h
      simp [dictLookup, hk, ih h']

theorem dictLookup_dictInsert (m k v : String) (d : Dict) :
    dictLookup m (dictInsert k v d)
      = if m = k then some v else dictLookup m d := by
  unfold dictInsert
  by_cases hm : m = k
  · subst hm
    rw [if_pos rfl]
    cases hc : containsKey m d
    · rw [if_neg (by simp [hc]), dictLookup_append]
      have hn : dictLookup m d = none := by
        induction d with
        | nil => rfl
        | cons p d ih =>
          have hp : p.1 ≠ m := not_containsKey_iff.mp hc p (List.mem_cons_self p d)
          have hc' : containsKey m d = false := by
            apply not_containsKey_iff.mpr
            intro q hq
            exact not_containsKey_iff.mp hc q (List.mem_cons_of_mem p hq)
          simp [dictLookup, hp, ih hc']
      rw [hn]
      simp [dictLookup]
    · rw [if_pos rfl]
      exact dictLookup_map_update_eq hc
  · rw [if_neg hm]
    cases hc : containsKey k d
    · rw [if_neg (by simp), dictLookup_append]
      cases hd : dictLookup m d with
      | none =>
        show dictLookup m [(k, v)] = none
        simp only [dictLookup]
        rw [if_neg fun he => hm he.symm]
      | some w => rfl
    · rw [if_pos rfl]
      exact dictLookup_map_update_ne hm d

/-! ### Lemmas about the parse loop -/

theorem mem_foldl_processLine :
    ∀ (lines : List String) (d : Dict) (p : String × String),
      p ∈ lines.foldl processLine d →
      p ∈ d ∨ ∃ line ∈ lines, searchMacStr line = some p.1 ∧ firstTokStr line = p.2
  | [], d, p => fun h => Or.inl h
  | l :: lines, d, p => by
    intro h
    rcases mem_foldl_processLine lines (processLine d l) p h with h1 | h1
    · unfold processLine at h1
      cases hs : searchMacStr l with
      | none => rw [hs] at h1; exact Or.inl h1
      | some mac =>
        rw [hs] at h1
        rcases mem_dictInsert h1 with h2 | h2
        · exact Or.inr ⟨l, List.mem_cons_self l lines, by simp [hs, h2]⟩
        · exact Or.inl h2
    · obtain ⟨line, hl, hp⟩ := h1
      exact Or.inr ⟨line, List.mem_cons_of_mem l hl, hp⟩

theorem foldl_processLine_skip (d : Dict) {l : String} (h : searchMacStr l = none) :
    processLine d l = d := by
  simp [processLine, h]

theorem foldl_processLine_filter :
    ∀ (lines : List String) (d : Dict),
      lines.foldl processLine d
        = (lines.filter fun l => (searchMacStr l).isSome).foldl processLine d
  | [], d => rfl
  | l :: lines, d => by
    cases hs : searchMacStr l with
    | none =>
      simp only [List.foldl_cons, List.filter_cons, hs, Option.isSome_none,
        Bool.false_eq_true, if_false]
      rw [foldl_processLine_skip d hs]
      exact foldl_processLine_filter lines d
    | some mac =>
      simp only [List.foldl_cons, List.filter_cons, hs, Option.isSome_some, if_true]
      exact foldl_processLine_filter lines (processLine d l)

theorem dictLookup_foldl (m : String) (lines : List String) :
    ∀ d : Dict,
      dictLookup m (lines.foldl processLine d)
        = match (lines.filter fun l => decide (searchMacStr l = some m)).getLast? with
          | some l => some (firstTokStr l)
          | none => dictLookup m d := by
  induction lines using List.reverseRecOn with
  | nil => intro d; rfl
  | append_singleton ls l ih =>
    intro d
    rw [List.foldl_append, List.foldl_cons, List.foldl_nil, List.filter_append]
    cases hs : searchMacStr l with
    | none =>
      rw [foldl_processLine_skip _ hs]
      have hf : List.filter (fun l => decide (searchMacStr l = some m)) [l] = [] := by
        simp [List.filter_cons, hs]
      rw [hf, List.append_nil]
      exact ih d
    | some mac =>
      by_cases hmac : mac = m
      · subst hmac
        have hf : List.filter (fun l => decide (searchMacStr l = some mac)) [l] = [l] := by
          simp [List.filter_cons, hs]
        rw [hf, List.getLast?_concat]
        have hpl : processLine (ls.foldl processLine d) l
            = dictInsert mac (firstTokStr l) (ls.foldl processLine d) := by
          simp [processLine, hs]
        rw [hpl, dictLookup_dictInsert, if_pos rfl]
      · have hf : List.filter (fun l => decide (searchMacStr l = some m)) [l] = [] := by
          simp [List.filter_cons, hs, hmac]
        rw [hf, List.append_nil]
        have hpl : processLine (ls.foldl processLine d) l
            = dictInsert mac (firstTokStr l) (ls.foldl processLine d) := by
          simp [processLine, hs]
        rw [hpl, dictLookup_dictInsert, if_neg fun he => hmac he.symm]
        exact ih d

theorem foldl_processLine_map_filter (raw : List (List Char)) :
    ∀ d : Dict,
      ((raw.filter fun l => !l.isEmpty).map String.mk).foldl processLine d
        = ((raw.map String.mk).filter fun s => (searchMacStr s).isSome).foldl processLine d := by
  induction raw with
  | nil => intro d; rfl
  | cons l raw ih =>
    intro d
    by_cases hA : l.isEmpty
    · have hl : l = [] := by simpa using hA
      subst hl
      have hB : searchMacStr (String.mk []) = none := rfl
      simp only [List.filter_cons, List.map_cons, List.isEmpty_nil, Bool.not_true,
        Bool.false_eq_true, if_false, hB, Option.isSome_none]
      exact ih d
    · have hA' : (!l.isEmpty) = true := by simp [hA]
      simp only [List.filter_cons, List.map_cons, hA', if_true]
      cases hB : (searchMacStr (String.mk l)).isSome
      · have hnone : searchMacStr (String.mk l) = none := by
          simpa [Option.isSome_iff_exists] using hB
        simp only [Bool.false_eq_true, if_false, List.foldl_cons,
          foldl_processLine_skip _ hnone]
        exact ih d
      · simp only [if_true, List.foldl_cons]
        exact ih (processLine d (String.mk l))

/-- C2, as stated, is false: the code stores `mac_match.group(0)` verbatim,
with no lowercase/colon normalisation, so a line whose link-layer address is
written with hyphen separators and uppercase hex digits yields the key
`AA-BB-CC-DD-EE-FF`, not `aa:bb:cc:dd:ee:ff`, and no normalised key is
present at all. -/
theorem parse_no_normalization_counterexample :
    buildCandidates "192.168.1.7 dev eth0 lladdr AA-BB-CC-DD-EE-FF REACHABLE\n"
        = [("AA-BB-CC-DD-EE-FF", "192.168.1.7")]
      ∧ ("AA-BB-CC-DD-EE-FF" : String) ≠ "aa:bb:cc:dd:ee:ff"
      ∧ dictLookup "aa:bb:cc:dd:ee:ff"
          (buildCandidates "192.168.1.7 dev eth0 lladdr AA-BB-CC-DD-EE-FF REACHABLE\n")
          = none :=
  ⟨by decide, by decide, by decide⟩

/-- C2 (amended): for every line on which the link-layer pattern matches,
the MAC stored as the CandidateSet key is the matched substring taken
verbatim — preserving the source line's separators and letter case — and
the value is that line's first whitespace-delimited token. -/
theorem parse_key_is_matched_substring (stdout m ip : String)
    (h : (m, ip) ∈ buildCandidates stdout) :
    ∃ line ∈ procResultLines stdout,
      searchMacStr line = some m ∧ firstTokStr line = ip := by
  rcases mem_foldl_processLine (procResultLines stdout) [] (m, ip) h with h1 | h1
  · simp at h1
  · exact h1

theorem parse_key_is_matched_substring_witness :
    (("AA-BB-CC-DD-EE-FF", "192.168.1.7")
        ∈ buildCandidates "192.168.1.7 dev eth0 lladdr AA-BB-CC-DD-EE-FF REACHABLE\n")
      ∧ ∃ line ∈ procResultLines "192.168.1.7 dev eth0 lladdr AA-BB-CC-DD-EE-FF REACHABLE\n",
          searchMacStr line = some "AA-BB-CC-DD-EE-FF" ∧ firstTokStr line = "192.168.1.7" :=
  ⟨by decide, parse_key_is_matched_substring _ _ _ (by decide)⟩

/-- C3: the candidate dict has unique MAC keys, and each key maps to the
first whitespace-delimited token of the *last* scanned line on which the
MAC pattern matched that key (last-write-wins); a key matched on no line is
absent. -/
theorem parse_last_write_wins (stdout : String) (m : String) :
    ((buildCandidates stdout).map Prod.fst).Nodup
      ∧ dictLookup m (buildCandidates stdout)
        = (((procResultLines stdout).filter fun l =>
            decide (searchMacStr l = some m)).getLast?).map firstTokStr := by
  constructor
  · exact nodup_keys_foldl _ (by simp)
  · rw [show buildCandidates stdout = (procResultLines stdout).foldl processLine [] from rfl,
      dictLookup_foldl]
    cases hl : (((procResultLines stdout).filter fun l =>
        decide (searchMacStr l = some m)).getLast?) <;> rfl

/-- C4: the parse step ignores empty lines and inserts no entry for any
line without a substring matching the six-group hex MAC pattern: the
candidate dict equals the fold of the insertion step over only those lines
on which the pattern search succeeds. -/
theorem parse_skips_nonmatching (stdout : String) :
    buildCandidates stdout
      = (((splitOn '\n' stdout.data).map String.mk).filter fun s =>
          (searchMacStr s).isSome).foldl processLine [] :=
  foldl_processLine_map_filter (splitOn '\n' stdout.data) []

/-! ### Lemmas about the MAC pattern and the whitespace tokenizer -/

theorem macHere_eq_some {cs m : List Char} (h : macHere cs = some m) :
    macShape m = true ∧ m = cs.take 17 := by
  unfold macHere at h
  split at h
  · have he : cs.take 17 = m := Option.some.inj h
    subst he
    exact ⟨by assumption, rfl⟩
  · cases h

theorem macShape_length {m : List Char} (h : macShape m = true) : m.length = 17 := by
  simp only [macShape, Bool.and_eq_true, decide_eq_true_eq] at h
  exact h.1

theorem macHere_self {m : List Char} (h : macShape m = true) : macHere m = some m := by
  unfold macHere
  rw [List.take_of_length_le (le_of_eq (macShape_length h)), if_pos h]

theorem macShape_cons_hex {c : Char} {l : List Char} (h : macShape (c :: l) = true) :
    isHexDigit c = true := by
  simp only [macShape, Bool.and_eq_true, List.all_eq_true, decide_eq_true_eq] at h
  have h0 := h.2 0 (by simp)
  simpa [List.getD] using h0

theorem macSearch_eq_some :
    ∀ {cs m : List Char}, macSearch cs = some m →
      macShape m = true ∧ ∃ c ∈ cs, isHexDigit c = true := by
  intro cs
  induction cs with
  | nil => intro m h; cases h
  | cons c rest ih =>
    intro m h
    simp only [macSearch] at h
    cases hh : macHere (c :: rest) with
    | some mm =>
      rw [hh] at h
      have hm : mm = m := Option.some.inj h
      subst hm
      obtain ⟨hsh, htake⟩ := macHere_eq_some hh
      refine ⟨hsh, c, List.mem_cons_self c rest, ?_⟩
      have ht : (c :: rest).take 17 = c :: rest.take 16 := rfl
      rw [htake] at hsh
      rw [ht] at hsh
      exact macShape_cons_hex hsh
    | none =>
      rw [hh] at h
      obtain ⟨hsh, x, hx, hhex⟩ := ih h
      exact ⟨hsh, x, List.mem_cons_of_mem c hx, hhex⟩

theorem isHexDigit_not_space {c : Char} (h : isHexDigit c = true) : isSpace c = false := by
  by_contra hc
  rw [Bool.not_eq_false] at hc
  simp only [isSpace, Bool.or_eq_true, decide_eq_true_eq] at hc
  rcases hc with ((((rfl | rfl) | rfl) | rfl) | rfl) | rfl <;> exact absurd h (by decide)

theorem pySplitAux_ne_nil_of_cur (cs : List Char) :
    ∀ {cur : List Char}, cur ≠ [] → pySplitAux cs cur ≠ [] := by
  induction cs with
  | nil => intro cur h; simp [pySplitAux, h]
  | cons c rest ih =>
    intro cur h
    cases hs : isSpace c
    · simp only [pySplitAux, hs, Bool.false_eq_true, if_false]
      exact ih (List.cons_ne_nil c cur)
    · simp only [pySplitAux, hs, if_true, if_neg h]
      exact List.cons_ne_nil _ _

theorem pySplitAux_ne_nil (cs : List Char) :
    ∀ {cur : List Char}, (∃ c ∈ cs, isSpace c = false) → pySplitAux cs cur ≠ [] := by
  induction cs with
  | nil =>
    intro cur h
    obtain ⟨c, hc, _⟩ := h
    exact absurd hc (List.not_mem_nil c)
  | cons c rest ih =>
    intro cur h
    cases hs : isSpace c
    · simp only [pySplitAux, hs, Bool.false_eq_true, if_false]
      exact pySplitAux_ne_nil_of_cur rest (List.cons_ne_nil c cur)
    · have hrest : ∃ x ∈ rest, isSpace x = false := by
        obtain ⟨x, hx, hxs⟩ := h
        rcases List.mem_cons.mp hx with rfl | hx'
        · simp [hs] at hxs
        · exact ⟨x, hx', hxs⟩
      simp only [pySplitAux, hs, if_true]
      by_cases hc : cur = []
      · rw [if_pos hc]
        exact ih hrest
      · rw [if_neg hc]
        exact List.cons_ne_nil _ _

theorem pySplitAux_tokens :
    ∀ (cs : List Char) {cur t : List Char}, (∀ c ∈ cur, isSpace c = false) →
      t ∈ pySplitAux cs cur → t ≠ [] ∧ ∀ c ∈ t, isSpace c = false := by
  intro cs
  induction cs with
  | nil =>
    intro cur t hcur ht
    by_cases hc : cur = []
    · simp [pySplitAux, hc] at ht
    · simp only [pySplitAux, if_neg hc] at ht
      have he : t = cur.reverse := List.mem_singleton.mp ht
      subst he
      refine ⟨by simp [hc], ?_⟩
      intro x hx
      exact hcur x (List.mem_reverse.mp hx)
  | cons c rest ih =>
    intro cur t hcur ht
    cases hs : isSpace c
    · simp only [pySplitAux, hs, Bool.false_eq_true, if_false] at ht
      refine ih ?_ ht
      intro x hx
      rcases List.mem_cons.mp hx with rfl | hx'
      · exact hs
      · exact hcur x hx'
    · simp only [pySplitAux, hs, if_true] at ht
      by_cases hc : cur = []
      · rw [if_pos hc] at ht
        exact ih (by simp) ht
      · rw [if_neg hc] at ht
        rcases List.mem_cons.mp ht with rfl | ht'
        · refine ⟨by simp [hc], ?_⟩
          intro x hx
          exact hcur x (List.mem_reverse.mp hx)
        · exact ih (by simp) ht'

theorem firstTokStr_spec {line : String} (h : pySplit line.data ≠ []) :
    firstTokStr line ≠ "" ∧ ∀ c ∈ (firstTokStr line).data, isSpace c = false := by
  unfold firstTokStr
  cases hl : pySplit line.data with
  | nil => exact absurd hl h
  | cons t ts =>
    have ht : t ∈ pySplit line.data := by
      rw [hl]
      exact List.mem_cons_self t ts
    have ht' : t ∈ pySplitAux line.data [] := ht
    obtain ⟨htne, htc⟩ := pySplitAux_tokens line.data (by simp) ht'
    simp only [List.headD_cons]
    constructor
    · intro he
      apply htne
      have hd : (String.mk t).data = ("" : String).data := by rw [he]
      simpa using hd
    · intro c hc
      exact htc c (by simpa using hc)

theorem mem_get_all {stdout : String} {probe : String → Bool} {p : String × String}
    (h : p ∈ get_all_reachable_lan_devs stdout probe) : p ∈ buildCandidates stdout := by
  have hdef : get_all_reachable_lan_devs stdout probe
      = if procResultLines stdout = [] then []
        else filterReachable ((procResultLines stdout).foldl processLine []) probe := rfl
  rw [hdef] at h
  by_cases hl : procResultLines stdout = []
  · rw [if_pos hl] at h
    exact absurd h (List.not_mem_nil p)
  · rw [if_neg hl] at h
    have hfr : filterReachable ((procResultLines stdout).foldl processLine []) probe
        = popLoop
            (((((procResultLines stdout).foldl processLine []).map Prod.fst)).zip
              (poolMapT probe (((procResultLines stdout).foldl processLine []).map Prod.snd) []).1)
            ((procResultLines stdout).foldl processLine []) := rfl
    rw [hfr] at h
    exact mem_popLoop h

/-- C5: `is_ip_reachable` returns `true` exactly when the probe run reports
an affirmative answer (exit status 0); a timeout, an explicit negative
response, and a probe-execution error all surface as a non-zero status and
yield `false` — a total boolean result, never a raised error for that
candidate (`subprocess.run` without `check` does not raise on non-zero
status). -/
theorem is_ip_reachable_iff_answered (o : ProbeOutcome) :
    is_ip_reachable (pingReturnCode o) = true ↔ o = ProbeOutcome.answered := by
  cases o <;> decide

/-- C9: on every line where the MAC pattern matches, the matched substring
contains a hex digit, hence a non-whitespace character, hence splitting the
line on whitespace yields a non-empty token list: `line.split()[0]` is
always in bounds and the parse step is total. -/
theorem parse_first_token_total (line mac : String)
    (h : searchMacStr line = some mac) :
    pySplit line.data ≠ [] := by
  unfold searchMacStr at h
  cases hm : macSearch line.data with
  | none => rw [hm] at h; cases h
  | some m =>
    obtain ⟨-, c, hc, hhex⟩ := macSearch_eq_some hm
    show pySplitAux line.data [] ≠ []
    exact pySplitAux_ne_nil line.data ⟨c, hc, isHexDigit_not_space hhex⟩

theorem parse_first_token_total_witness :
    searchMacStr "192.168.1.10 dev eth0 lladdr aa:bb:cc:dd:ee:ff REACHABLE"
        = some "aa:bb:cc:dd:ee:ff"
      ∧ pySplit ("192.168.1.10 dev eth0 lladdr aa:bb:cc:dd:ee:ff REACHABLE" : String).data
          ≠ [] :=
  ⟨by decide,
    parse_first_token_total "192.168.1.10 dev eth0 lladdr aa:bb:cc:dd:ee:ff REACHABLE"
      "aa:bb:cc:dd:ee:ff" (by decide)⟩

/-- C10: every key of the mapping returned by `get_all_reachable_lan_devs`
is a full match of the six-group hex MAC pattern, and every value is a
non-empty token containing no whitespace; filtering only removes entries,
so the invariant established by the parse step survives to the result. -/
theorem result_entries_wellformed (stdout : String) (probe : String → Bool)
    (m ip : String) (h : (m, ip) ∈ get_all_reachable_lan_devs stdout probe) :
    macShape m.data = true ∧ ip ≠ "" ∧ ∀ c ∈ ip.data, isSpace c = false := by
  have hb : (m, ip) ∈ buildCandidates stdout := mem_get_all h
  rcases mem_foldl_processLine (procResultLines stdout) [] (m, ip) hb with h1 | h1
  · simp at h1
  obtain ⟨line, hline, hs, htok⟩ := h1
  unfold searchMacStr at hs
  cases hms : macSearch line.data with
  | none => rw [hms] at hs; cases hs
  | some mm =>
    rw [hms] at hs
    have hmm : String.mk mm = m := Option.some.inj hs
    have hsh := (macSearch_eq_some hms).1
    have hmdata : m.data = mm := by rw [← hmm]
    obtain ⟨c, hc, hhex⟩ := (macSearch_eq_some hms).2
    have hps : pySplit line.data ≠ [] := by
      show pySplitAux line.data [] ≠ []
      exact pySplitAux_ne_nil line.data ⟨c, hc, isHexDigit_not_space hhex⟩
    obtain ⟨h1, h2⟩ := firstTokStr_spec hps
    have htok' : firstTokStr line = ip := htok
    exact ⟨by rw [hmdata]; exact hsh, htok' ▸ h1, htok' ▸ h2⟩

theorem result_entries_wellformed_witness :
    (("aa:bb:cc:dd:ee:ff", "192.168.1.10")
        ∈ get_all_reachable_lan_devs
            "192.168.1.10 dev eth0 lladdr aa:bb:cc:dd:ee:ff REACHABLE\n" (fun _ => true))
      ∧ (macShape ("aa:bb:cc:dd:ee:ff" : String).data = true
          ∧ ("192.168.1.10" : String) ≠ ""
          ∧ ∀ c ∈ ("192.168.1.10" : String).data, isSpace c = false) :=
  ⟨by decide,
    result_entries_wellformed
      "192.168.1.10 dev eth0 lladdr aa:bb:cc:dd:ee:ff REACHABLE\n" (fun _ => true)
      "aa:bb:cc:dd:ee:ff" "192.168.1.10" (by decide)⟩

/-- C8: if the first user argument is one of `help`, `-help`, `--help`,
`/help`, the program exits 0 without running discovery; otherwise a failed
dependency preflight exits 1 without invoking the core; otherwise discovery
runs and the program exits 0 for every neighbour-table text and probe,
including when the result set is empty. -/
theorem main_dispatch :
    (∀ (argv : List String) (pre : Bool) (stdout : String) (probe : String → Bool),
        1 < argv.length → argv.getD 1 "" ∈ helpArgs →
        mainRun argv pre stdout probe = (0, false))
      ∧ (∀ (argv : List String) (stdout : String) (probe : String → Bool),
          ¬(1 < argv.length ∧ argv.getD 1 "" ∈ helpArgs) →
          mainRun argv false stdout probe = (1, false))
      ∧ (∀ (argv : List String) (stdout : String) (probe : String → Bool),
          ¬(1 < argv.length ∧ argv.getD 1 "" ∈ helpArgs) →
          mainRun argv true stdout probe = (0, true)) := by
  refine ⟨?_, ?_, ?_⟩
  · intro argv pre stdout probe h1 h2
    have hcond : (decide (1 < argv.length) && decide (argv.getD 1 "" ∈ helpArgs)) = true := by
      simp only [Bool.and_eq_true, decide_eq_true_eq]
      exact ⟨h1, h2⟩
    unfold mainRun
    rw [if_pos hcond]
  · intro argv stdout probe h
    unfold mainRun
    rw [if_neg (by simpa [Bool.and_eq_true] using h)]
    simp
  · intro argv stdout probe h
    unfold mainRun
    rw [if_neg (by simpa [Bool.and_eq_true] using h)]
    simp

theorem main_dispatch_witness :
    (1 < (["landevlist", "--help"] : List String).length
        ∧ (["landevlist", "--help"] : List String).getD 1 "" ∈ helpArgs
        ∧ mainRun ["landevlist", "--help"] true "" (fun _ => false) = (0, false))
      ∧ (¬(1 < (["landevlist"] : List String).length
            ∧ (["landevlist"] : List String).getD 1 "" ∈ helpArgs)
          ∧ mainRun ["landevlist"] false "" (fun _ => false) = (1, false)
          ∧ mainRun ["landevlist"] true "" (fun _ => false) = (0, true)) :=
  ⟨⟨by decide, by decide, main_dispatch.1 _ _ _ _ (by decide) (by decide)⟩,
    by decide, main_dispatch.2.1 _ _ _ (by decide), main_dispatch.2.2 _ _ _ (by decide)⟩

end Landevlist
